import Mathlib

/-!
# Verification of the Gemini account-rotation manager and OpenAI-compatible proxy

A shallow embedding of the core logic of the repository:

* `src/src/gemini_webapi/account_manager.py` — `get_next_account`, `reset_counts`
* `src/openai_server.py` — image-generation retry loop, overload detection,
  chat-completion cleanup paths, stream chunking, response formatting, and the
  asset-directory sweep.

The credential store (Supabase) is external; its documented query semantics
(`enabled=eq.true&order=call_count.asc&limit=1`, `PATCH ...?alias=eq.X`,
`PATCH ...?alias=neq.PLACEHOLDER`) are embedded as pure operations on a
`List Account` that stands for the table contents.
-/

namespace GeminiProxy

/-- One row of the `gemini_accounts` table.  Fields mirror the record shape read
and written by `account_manager.py` (timestamps carry no logic here and are
omitted). -/
structure Account where
  «alias» : String
  psid : String
  psidts : String
  proxy : Option String
  headers : Option String
  enabled : Bool
  call_count : Nat
  deriving DecidableEq, Repr

/-- The dictionary returned by `get_next_account` (account_manager.py lines
75–82): a snapshot of the selected row with the post-increment counter. -/
structure Snapshot where
  «alias» : String
  psid : String
  psidts : String
  proxy : Option String
  headers : Option String
  call_count : Nat
  deriving DecidableEq, Repr

/-- The store's answer to `order=call_count.asc&limit=1`: the first row holding
a minimal `call_count` (ties broken by row order, as a stable ascending sort
does).  `none` iff the filtered list is empty. -/
def leastUsed : List Account → Option Account
  | [] => none
  | a :: rest =>
    match leastUsed rest with
    | none => some a
    | some b => if a.call_count ≤ b.call_count then some a else some b

/-- `get_next_account` (account_manager.py lines 31–86).  Reads the enabled
rows ordered ascending by `call_count` with limit 1; raises
`No enabled accounts found` (modelled as `none`) when that result set is empty;
otherwise PATCHes every row whose alias equals the chosen row's alias to the
incremented count and returns the snapshot carrying that incremented count.
The returned pair is (snapshot, table contents after the PATCH). -/
def get_next_account (pool : List Account) : Option (Snapshot × List Account) :=
  match leastUsed (pool.filter (·.enabled)) with
  | none => none
  | some a =>
    let newCount := a.call_count + 1
    let pool' := pool.map fun b =>
      if b.alias = a.alias then { b with call_count := newCount } else b
    some ({ «alias» := a.alias, psid := a.psid, psidts := a.psidts,
            proxy := a.proxy, headers := a.headers, call_count := newCount },
          pool')

/-- `reset_counts` (account_manager.py lines 100–110): a single PATCH with the
filter `alias=neq.PLACEHOLDER` setting `call_count` to 0 — so rows whose alias
is exactly `"PLACEHOLDER"` are untouched. -/
def reset_counts (pool : List Account) : List Account :=
  pool.map fun a =>
    if a.alias = "PLACEHOLDER" then a else { a with call_count := 0 }

/-- `n` sequential (non-concurrent) calls to `get_next_account`, each seeing
the table as left by the previous call; a failed call leaves the table as is. -/
def iterateSelect : Nat → List Account → List Account
  | 0, pool => pool
  | n + 1, pool =>
    match get_next_account pool with
    | none => pool
    | some (_, pool') => iterateSelect n pool'

/-- The `call_count` column restricted to enabled rows. -/
def enabledCounts (pool : List Account) : List Nat :=
  (pool.filter (·.enabled)).map (·.call_count)

/-- Maximum of a list of naturals (0 on the empty list). -/
def maxOf : List Nat → Nat
  | [] => 0
  | h :: t => t.foldl Nat.max h

/-- Minimum of a list of naturals (0 on the empty list). -/
def minOf : List Nat → Nat
  | [] => 0
  | h :: t => t.foldl Nat.min h

/-! ### Lemmas about `leastUsed` -/

theorem leastUsed_eq_none {l : List Account} : leastUsed l = none ↔ l = [] := by
  cases l with
  | nil => simp [leastUsed]
  | cons a rest =>
    simp only [leastUsed]
    cases h : leastUsed rest with
    | none => simp
    | some b =>
      constructor
      · intro hc
        by_cases hle : a.call_count ≤ b.call_count <;> simp [hle] at hc
      · intro hc; cases hc

theorem leastUsed_mem {l : List Account} {a : Account} (h : leastUsed l = some a) :
    a ∈ l := by
  induction l with
  | nil => cases h
  | cons x rest ih =>
    simp only [leastUsed] at h
    cases hr : leastUsed rest with
    | none =>
      rw [hr] at h
      simp at h
      simp [h]
    | some b =>
      rw [hr] at h
      by_cases hle : x.call_count ≤ b.call_count
      · simp [hle] at h
        simp [h]
      · simp [hle] at h
        subst h
        exact List.mem_cons_of_mem _ (ih hr)

theorem leastUsed_min {l : List Account} {a : Account} (h : leastUsed l = some a) :
    ∀ b ∈ l, a.call_count ≤ b.call_count := by
  induction l generalizing a with
  | nil => cases h
  | cons x rest ih =>
    intro b hb
    simp only [leastUsed] at h
    cases hr : leastUsed rest with
    | none =>
      rw [hr] at h
      have hrest : rest = [] := leastUsed_eq_none.mp hr
      subst hrest
      simp at h hb
      subst h
      subst hb
      exact le_refl _
    | some c =>
      rw [hr] at h
      rcases List.mem_cons.mp hb with rfl | hbr
      · by_cases hle : b.call_count ≤ c.call_count
        · simp [hle] at h
          subst h
          exact le_refl _
        · simp [hle] at h
          subst h
          exact le_of_not_le hle
      · by_cases hle : x.call_count ≤ c.call_count
        · simp [hle] at h
          subst h
          exact le_trans hle (ih hr b hbr)
        · simp [hle] at h
          subst h
          exact ih hr b hbr

/-! ### Characterization of `get_next_account` -/

theorem get_next_account_eq_none {pool : List Account} :
    get_next_account pool = none ↔ pool.filter (·.enabled) = [] := by
  cases h : leastUsed (pool.filter (·.enabled)) with
  | none =>
    simp only [get_next_account, h]
    exact ⟨fun _ => leastUsed_eq_none.mp h, fun _ => trivial⟩
  | some a =>
    simp only [get_next_account, h]
    constructor
    · intro hc; cases hc
    · intro hnil
      rw [hnil] at h
      cases h

theorem get_next_account_some {pool : List Account} {snap : Snapshot}
    {pool' : List Account} (h : get_next_account pool = some (snap, pool')) :
    ∃ a, leastUsed (pool.filter (·.enabled)) = some a ∧
      snap = { «alias» := a.alias, psid := a.psid, psidts := a.psidts,
               proxy := a.proxy, headers := a.headers,
               call_count := a.call_count + 1 } ∧
      pool' = pool.map (fun b =>
        if b.alias = a.alias then { b with call_count := a.call_count + 1 } else b) := by
  cases hm : leastUsed (pool.filter (·.enabled)) with
  | none =>
    simp only [get_next_account, hm] at h
    exact Option.noConfusion h
  | some a =>
    simp only [get_next_account, hm, Option.some.injEq, Prod.mk.injEq] at h
    exact ⟨a, rfl, h.1.symm, h.2.symm⟩

theorem get_next_account_isSome {pool : List Account}
    (hne : pool.filter (·.enabled) ≠ []) :
    ∃ snap pool', get_next_account pool = some (snap, pool') := by
  cases hm : leastUsed (pool.filter (·.enabled)) with
  | none => exact absurd (leastUsed_eq_none.mp hm) hne
  | some a =>
    exact ⟨{ «alias» := a.alias, psid := a.psid, psidts := a.psidts,
             proxy := a.proxy, headers := a.headers,
             call_count := a.call_count + 1 },
           pool.map (fun b =>
             if b.alias = a.alias then { b with call_count := a.call_count + 1 }
             else b),
           by simp only [get_next_account, hm]⟩

/-- The two-account pool of the spec's end-to-end scenario for account
selection. -/
def demoPool : List Account :=
  [ { «alias» := "a", psid := "pa", psidts := "ta", proxy := none,
      headers := none, enabled := true, call_count := 5 },
    { «alias» := "b", psid := "pb", psidts := "tb", proxy := none,
      headers := none, enabled := true, call_count := 2 } ]

/-- The snapshot `get_next_account` returns on `demoPool`. -/
def demoSnap : Snapshot :=
  { «alias» := "b", psid := "pb", psidts := "tb", proxy := none,
    headers := none, call_count := 3 }

/-- The table contents after `get_next_account` ran on `demoPool`. -/
def demoPoolAfter : List Account :=
  [ { «alias» := "a", psid := "pa", psidts := "ta", proxy := none,
      headers := none, enabled := true, call_count := 5 },
    { «alias» := "b", psid := "pb", psidts := "tb", proxy := none,
      headers := none, enabled := true, call_count := 3 } ]

/-- C1: `get_next_account` fails exactly when the enabled-filtered result set
is empty (never yielding a placeholder), and otherwise returns a snapshot of a
least-used enabled account whose `call_count` is the stored count plus exactly
1; on the pool [{alias a, count 5}, {alias b, count 2}] it returns alias "b"
with count 3. -/
theorem get_next_account_spec (pool : List Account) :
    (get_next_account pool = none ↔ pool.filter (·.enabled) = []) ∧
    (∀ snap pool', get_next_account pool = some (snap, pool') →
      ∃ a, a ∈ pool ∧ a.enabled = true ∧
        snap.alias = a.alias ∧ snap.psid = a.psid ∧ snap.psidts = a.psidts ∧
        snap.call_count = a.call_count + 1 ∧
        ∀ b ∈ pool, b.enabled = true → a.call_count ≤ b.call_count) ∧
    (get_next_account demoPool).map Prod.fst = some demoSnap := by
  refine ⟨get_next_account_eq_none, ?_, rfl⟩
  intro snap pool' h
  obtain ⟨a, hm, hsnap, -⟩ := get_next_account_some h
  have hmemf : a ∈ pool.filter (·.enabled) := leastUsed_mem hm
  have hmem : a ∈ pool := (List.mem_filter.mp hmemf).1
  have hen : a.enabled = true := by simpa using (List.mem_filter.mp hmemf).2
  refine ⟨a, hmem, hen, ?_, ?_, ?_, ?_, ?_⟩
  · rw [hsnap]
  · rw [hsnap]
  · rw [hsnap]
  · rw [hsnap]
  · intro b hb hbe
    exact leastUsed_min hm b (List.mem_filter.mpr ⟨hb, by simpa using hbe⟩)

/-- Witness for C1: the spec theorem applied to the scenario pool. -/
theorem get_next_account_spec_witness :
    ∃ a, a ∈ demoPool ∧ a.enabled = true ∧
      demoSnap.alias = a.alias ∧ demoSnap.psid = a.psid ∧
      demoSnap.psidts = a.psidts ∧
      demoSnap.call_count = a.call_count + 1 ∧
      ∀ b ∈ demoPool, b.enabled = true → a.call_count ≤ b.call_count :=
  (get_next_account_spec demoPool).2.1 demoSnap demoPoolAfter rfl

/-- A pool whose single enabled account carries empty credential tokens; the
code never inspects `psid`/`psidts`, so it is selected anyway. -/
def badPool : List Account :=
  [ { «alias» := "x", psid := "", psidts := "", proxy := none,
      headers := none, enabled := true, call_count := 0 } ]

/-- C4 counterexample: `badPool` has an enabled account, yet `get_next_account`
returns a snapshot whose two credential tokens are both empty —
`get_next_account` performs no token-presence check, refuting the claim that it
never returns an account with empty tokens. -/
theorem get_next_account_empty_tokens_counterexample :
    badPool.any (·.enabled) = true ∧
    (get_next_account badPool).map (fun p => (p.1.psid, p.1.psidts)) =
      some ("", "") :=
  ⟨rfl, rfl⟩

/-- C4 (amended): on a pool with at least one enabled account, every enabled
account of which has non-empty credential tokens, `get_next_account` succeeds
and its snapshot copies an enabled account of the pool — hence is never a
disabled account and never carries empty tokens. -/
theorem get_next_account_no_disabled_no_empty_tokens (pool : List Account)
    (hpool : ∃ a, a ∈ pool ∧ a.enabled = true)
    (hinv : ∀ a, a ∈ pool → a.enabled = true → a.psid ≠ "" ∧ a.psidts ≠ "") :
    ∃ snap pool', get_next_account pool = some (snap, pool') ∧
      (∃ a, a ∈ pool ∧ a.enabled = true ∧ snap.alias = a.alias ∧
        snap.psid = a.psid ∧ snap.psidts = a.psidts) ∧
      snap.psid ≠ "" ∧ snap.psidts ≠ "" := by
  obtain ⟨a0, ha0, ha0e⟩ := hpool
  have hne : pool.filter (·.enabled) ≠ [] := by
    intro hnil
    have : a0 ∈ pool.filter (·.enabled) :=
      List.mem_filter.mpr ⟨ha0, by simpa using ha0e⟩
    rw [hnil] at this
    cases this
  obtain ⟨snap, pool', hsome⟩ := get_next_account_isSome hne
  obtain ⟨a, hm, hsnap, -⟩ := get_next_account_some hsome
  have hmemf : a ∈ pool.filter (·.enabled) := leastUsed_mem hm
  have hmem : a ∈ pool := (List.mem_filter.mp hmemf).1
  have hen : a.enabled = true := by simpa using (List.mem_filter.mp hmemf).2
  obtain ⟨hp, hpt⟩ := hinv a hmem hen
  refine ⟨snap, pool', hsome, ⟨a, hmem, hen, ?_, ?_, ?_⟩, ?_, ?_⟩ <;>
    simp [hsnap, hp, hpt]

/-- Witness for C4: the amended theorem applied to `demoPool`. -/
theorem get_next_account_no_disabled_no_empty_tokens_witness :
    ∃ snap pool', get_next_account demoPool = some (snap, pool') ∧
      (∃ a, a ∈ demoPool ∧ a.enabled = true ∧ snap.alias = a.alias ∧
        snap.psid = a.psid ∧ snap.psidts = a.psidts) ∧
      snap.psid ≠ "" ∧ snap.psidts ≠ "" :=
  get_next_account_no_disabled_no_empty_tokens demoPool
    ⟨{ «alias» := "a", psid := "pa", psidts := "ta", proxy := none,
       headers := none, enabled := true, call_count := 5 }, by decide, rfl⟩
    (by decide)

/-- A pool whose only row is named exactly `PLACEHOLDER`, the alias the
`reset_counts` PATCH filter excludes. -/
def placeholderPool : List Account :=
  [ { «alias» := "PLACEHOLDER", psid := "p", psidts := "t", proxy := none,
      headers := none, enabled := true, call_count := 7 } ]

/-- C8 counterexample: `reset_counts` leaves the count of an account whose
alias is exactly `"PLACEHOLDER"` at its old value 7 — the PATCH filter
`alias=neq.PLACEHOLDER` skips that row, refuting the claim that every record's
counter is reset regardless of alias. -/
theorem reset_counts_placeholder_counterexample :
    (reset_counts placeholderPool).map (·.call_count) = [7] :=
  rfl

/-- C8 (amended): `reset_counts` sets `call_count` to 0 for every account whose
alias differs from `"PLACEHOLDER"`, regardless of enabled state, leaves every
account whose alias is exactly `"PLACEHOLDER"` unchanged, and touches no other
column. -/
theorem reset_counts_spec (pool : List Account) :
    ((reset_counts pool).map (·.alias) = pool.map (·.alias)) ∧
    (∀ b, b ∈ reset_counts pool → b.alias ≠ "PLACEHOLDER" → b.call_count = 0) ∧
    (∀ a, a ∈ pool → a.alias = "PLACEHOLDER" → a ∈ reset_counts pool) ∧
    (∀ a, a ∈ pool → a.alias ≠ "PLACEHOLDER" →
      { a with call_count := 0 } ∈ reset_counts pool) := by
  refine ⟨?_, ?_, ?_, ?_⟩
  · induction pool with
    | nil => rfl
    | cons x rest ih =>
      by_cases hx : x.alias = "PLACEHOLDER" <;>
        simp [reset_counts, hx] at ih ⊢ <;> exact ih
  · intro b hb hne
    obtain ⟨a, ha, hfa⟩ := List.mem_map.mp hb
    by_cases hx : a.alias = "PLACEHOLDER"
    · simp only [hx, if_pos rfl] at hfa
      · rw [← hfa] at hne
        exact absurd hx hne
    · simp only [if_neg hx] at hfa
      rw [← hfa]
  · intro a ha hx
    exact List.mem_map.mpr ⟨a, ha, by simp [hx]⟩
  · intro a ha hx
    exact List.mem_map.mpr ⟨a, ha, by simp [hx]⟩

/-- Witness for C8: on `demoPool` the amended theorem yields the reset first
account. -/
theorem reset_counts_spec_witness :
    ({ «alias» := "a", psid := "pa", psidts := "ta", proxy := none,
       headers := none, enabled := true, call_count := 5 } : Account) ∈ demoPool ∧
    ({ «alias» := "a", psid := "pa", psidts := "ta", proxy := none,
       headers := none, enabled := true, call_count := 0 } : Account) ∈
      reset_counts demoPool :=
  ⟨by decide,
   (reset_counts_spec demoPool).2.2.2
     { «alias» := "a", psid := "pa", psidts := "ta", proxy := none,
       headers := none, enabled := true, call_count := 5 }
     (by decide) (by decide)⟩

/-! ### Fairness of repeated selection (spread of the usage counters) -/

/-- Any two enabled rows differ in `call_count` by at most 1. -/
def NearUniform (pool : List Account) : Prop :=
  ∀ a ∈ pool, a.enabled = true → ∀ b ∈ pool, b.enabled = true →
    a.call_count ≤ b.call_count + 1

theorem foldl_min_le_init (l : List Nat) (a : Nat) : l.foldl Nat.min a ≤ a := by
  induction l generalizing a with
  | nil => exact le_refl a
  | cons h t ih => exact le_trans (ih (Nat.min a h)) (Nat.min_le_left a h)

theorem foldl_min_le_mem (l : List Nat) (a : Nat) :
    ∀ x ∈ l, l.foldl Nat.min a ≤ x := by
  induction l generalizing a with
  | nil => intro x hx; cases hx
  | cons h t ih =>
    intro x hx
    rcases List.mem_cons.mp hx with rfl | hxt
    · exact le_trans (foldl_min_le_init t (Nat.min a x)) (Nat.min_le_right a x)
    · exact ih (Nat.min a h) x hxt

theorem foldl_min_mem_or (l : List Nat) (a : Nat) :
    l.foldl Nat.min a = a ∨ l.foldl Nat.min a ∈ l := by
  induction l generalizing a with
  | nil => exact Or.inl rfl
  | cons h t ih =>
    rcases ih (Nat.min a h) with heq | hmem
    · have hch : Nat.min a h = a ∨ Nat.min a h = h := by
        by_cases hab : a ≤ h
        · exact Or.inl (Nat.min_eq_left hab)
        · exact Or.inr (Nat.min_eq_right (le_of_not_le hab))
      rcases hch with hc | hc
      · exact Or.inl (by simp only [List.foldl]; rw [heq, hc])
      · exact Or.inr (List.mem_cons.mpr (Or.inl (heq.trans hc)))
    · exact Or.inr (List.mem_cons_of_mem h hmem)

theorem foldl_max_init_le (l : List Nat) (a : Nat) : a ≤ l.foldl Nat.max a := by
  induction l generalizing a with
  | nil => exact le_refl a
  | cons h t ih => exact le_trans (Nat.le_max_left a h) (ih (Nat.max a h))

theorem foldl_max_mem_le (l : List Nat) (a : Nat) :
    ∀ x ∈ l, x ≤ l.foldl Nat.max a := by
  induction l generalizing a with
  | nil => intro x hx; cases hx
  | cons h t ih =>
    intro x hx
    rcases List.mem_cons.mp hx with rfl | hxt
    · exact le_trans (Nat.le_max_right a x) (foldl_max_init_le t (Nat.max a x))
    · exact ih (Nat.max a h) x hxt

theorem foldl_max_mem_or (l : List Nat) (a : Nat) :
    l.foldl Nat.max a = a ∨ l.foldl Nat.max a ∈ l := by
  induction l generalizing a with
  | nil => exact Or.inl rfl
  | cons h t ih =>
    rcases ih (Nat.max a h) with heq | hmem
    · have hch : Nat.max a h = a ∨ Nat.max a h = h := by
        by_cases hab : a ≤ h
        · exact Or.inr (Nat.max_eq_right hab)
        · exact Or.inl (Nat.max_eq_left (le_of_not_le hab))
      rcases hch with hc | hc
      · exact Or.inl (by simp only [List.foldl]; rw [heq, hc])
      · exact Or.inr (List.mem_cons.mpr (Or.inl (heq.trans hc)))
    · exact Or.inr (List.mem_cons_of_mem h hmem)

theorem minOf_le_mem (l : List Nat) : ∀ x ∈ l, minOf l ≤ x := by
  cases l with
  | nil => intro x hx; cases hx
  | cons h t =>
    intro x hx
    rcases List.mem_cons.mp hx with rfl | hxt
    · exact foldl_min_le_init t x
    · exact foldl_min_le_mem t h x hxt

theorem minOf_mem {l : List Nat} (h : l ≠ []) : minOf l ∈ l := by
  cases l with
  | nil => exact absurd rfl h
  | cons a t =>
    rcases foldl_min_mem_or t a with heq | hmem
    · simp only [minOf]
      rw [heq]
      exact List.mem_cons_self a t
    · exact List.mem_cons_of_mem a hmem

theorem maxOf_mem_le (l : List Nat) : ∀ x ∈ l, x ≤ maxOf l := by
  cases l with
  | nil => intro x hx; cases hx
  | cons h t =>
    intro x hx
    rcases List.mem_cons.mp hx with rfl | hxt
    · exact foldl_max_init_le t x
    · exact foldl_max_mem_le t h x hxt

theorem maxOf_mem {l : List Nat} (h : l ≠ []) : maxOf l ∈ l := by
  cases l with
  | nil => exact absurd rfl h
  | cons a t =>
    rcases foldl_max_mem_or t a with heq | hmem
    · simp only [maxOf]
      rw [heq]
      exact List.mem_cons_self a t
    · exact List.mem_cons_of_mem a hmem

theorem mem_enabledCounts {pool : List Account} {x : Nat} :
    x ∈ enabledCounts pool ↔
      ∃ a, a ∈ pool ∧ a.enabled = true ∧ a.call_count = x := by
  simp only [enabledCounts, List.mem_map, List.mem_filter]
  constructor
  · rintro ⟨a, ⟨ha, hae⟩, hx⟩
    exact ⟨a, ha, by simpa using hae, hx⟩
  · rintro ⟨a, ha, hae, hx⟩
    exact ⟨a, ⟨ha, by simpa using hae⟩, hx⟩

theorem nearUniform_iff_spread (pool : List Account) :
    NearUniform pool ↔
      maxOf (enabledCounts pool) - minOf (enabledCounts pool) ≤ 1 := by
  constructor
  · intro hnu
    by_cases hc : enabledCounts pool = []
    · simp [hc, maxOf, minOf]
    · obtain ⟨amax, hmaxMem, hmaxEn, hmaxEq⟩ :=
        mem_enabledCounts.mp (maxOf_mem hc)
      obtain ⟨amin, hminMem, hminEn, hminEq⟩ :=
        mem_enabledCounts.mp (minOf_mem hc)
      have := hnu amax hmaxMem hmaxEn amin hminMem hminEn
      omega
  · intro hs a ha hae b hb hbe
    have hmax : a.call_count ≤ maxOf (enabledCounts pool) :=
      maxOf_mem_le _ _ (mem_enabledCounts.mpr ⟨a, ha, hae, rfl⟩)
    have hmin : minOf (enabledCounts pool) ≤ b.call_count :=
      minOf_le_mem _ _ (mem_enabledCounts.mpr ⟨b, hb, hbe, rfl⟩)
    have hmm : minOf (enabledCounts pool) ≤ maxOf (enabledCounts pool) := by
      by_cases hc : enabledCounts pool = []
      · simp [hc, maxOf, minOf]
      · exact minOf_le_mem _ _ (maxOf_mem hc)
    omega

theorem get_next_account_nearUniform {pool : List Account} {snap : Snapshot}
    {pool' : List Account} (hnu : NearUniform pool)
    (h : get_next_account pool = some (snap, pool')) : NearUniform pool' := by
  obtain ⟨sel, hm, -, hp'⟩ := get_next_account_some h
  have hmemf : sel ∈ pool.filter (·.enabled) := leastUsed_mem hm
  have hsmem : sel ∈ pool := (List.mem_filter.mp hmemf).1
  have hsen : sel.enabled = true := by simpa using (List.mem_filter.mp hmemf).2
  have hmin : ∀ b ∈ pool, b.enabled = true → sel.call_count ≤ b.call_count :=
    fun b hb hbe =>
      leastUsed_min hm b (List.mem_filter.mpr ⟨hb, by simpa using hbe⟩)
  subst hp'
  have hbound : ∀ c ∈ pool.map (fun b =>
      if b.alias = sel.alias then { b with call_count := sel.call_count + 1 }
      else b), c.enabled = true →
      sel.call_count ≤ c.call_count ∧ c.call_count ≤ sel.call_count + 1 := by
    intro c hc hce
    obtain ⟨b, hb, hfb⟩ := List.mem_map.mp hc
    by_cases hal : b.alias = sel.alias
    · rw [if_pos hal] at hfb
      subst hfb
      exact ⟨Nat.le_succ _, le_refl _⟩
    · rw [if_neg hal] at hfb
      subst hfb
      exact ⟨hmin b hb hce, hnu b hb hce sel hsmem hsen⟩
  intro a' ha' ha'e b' hb' hb'e
  obtain ⟨h1, h2⟩ := hbound a' ha' ha'e
  obtain ⟨h3, h4⟩ := hbound b' hb' hb'e
  omega

theorem iterateSelect_nearUniform (n : Nat) (pool : List Account)
    (h : NearUniform pool) : NearUniform (iterateSelect n pool) := by
  induction n generalizing pool with
  | zero => exact h
  | succ n ih =>
    cases hg : get_next_account pool with
    | none => simp only [iterateSelect, hg]; exact h
    | some sp =>
      obtain ⟨snap, pool'⟩ := sp
      simp only [iterateSelect, hg]
      exact ih pool' (get_next_account_nearUniform h hg)

/-- A two-account pool with heavily skewed initial usage counters. -/
def skewPool : List Account :=
  [ { «alias» := "p", psid := "sp", psidts := "tp", proxy := none,
      headers := none, enabled := true, call_count := 0 },
    { «alias» := "q", psid := "sq", psidts := "tq", proxy := none,
      headers := none, enabled := true, call_count := 100 } ]

/-- C7 counterexample: on a static pool of two enabled accounts with counters
0 and 100, after N = 1 sequential call the maximum-minus-minimum `call_count`
is 99, not at most 1 — selection only ever increments the least-used row, so a
pre-existing skew is not erased after an arbitrary N. -/
theorem iterateSelect_spread_counterexample :
    maxOf (enabledCounts (iterateSelect 1 skewPool)) -
      minOf (enabledCounts (iterateSelect 1 skewPool)) = 99 := by
  decide

/-- C7 (amended): for a static pool whose enabled accounts start with
maximum-minus-minimum `call_count` at most 1, after any number N of sequential
(non-concurrent) `get_next_account` calls the maximum-minus-minimum
`call_count` across the enabled accounts is still at most 1. -/
theorem iterateSelect_spread_le_one (pool : List Account) (n : Nat)
    (h : maxOf (enabledCounts pool) - minOf (enabledCounts pool) ≤ 1) :
    maxOf (enabledCounts (iterateSelect n pool)) -
      minOf (enabledCounts (iterateSelect n pool)) ≤ 1 :=
  (nearUniform_iff_spread _).mp
    (iterateSelect_nearUniform n pool ((nearUniform_iff_spread pool).mpr h))

/-- A two-account pool with uniform usage counters. -/
def uniformPool : List Account :=
  [ { «alias» := "u1", psid := "s1", psidts := "t1", proxy := none,
      headers := none, enabled := true, call_count := 1 },
    { «alias» := "u2", psid := "s2", psidts := "t2", proxy := none,
      headers := none, enabled := true, call_count := 1 } ]

/-- Witness for C7: the amended theorem applied to `uniformPool` with N = 3. -/
theorem iterateSelect_spread_le_one_witness :
    maxOf (enabledCounts uniformPool) - minOf (enabledCounts uniformPool) ≤ 1 ∧
    maxOf (enabledCounts (iterateSelect 3 uniformPool)) -
      minOf (enabledCounts (iterateSelect 3 uniformPool)) ≤ 1 :=
  ⟨by decide, iterateSelect_spread_le_one uniformPool 3 (by decide)⟩

/-! ### Overload detection (openai_server.py, image endpoints) -/

/-- Python `str.lower()` over the characters of the error text. -/
def lowerChars (l : List Char) : List Char := l.map Char.toLower

/-- `leadsList needle hay`: the needle is an initial segment of the hay. -/
def leadsList : List Char → List Char → Bool
  | [], _ => true
  | _ :: _, [] => false
  | a :: as, b :: bs => (a = b) && leadsList as bs

/-- Python's substring operator `needle in hay`. -/
def containsSub (hay needle : List Char) : Bool :=
  (List.range (hay.length + 1)).any fun i => leadsList needle (hay.drop i)

/-- First documented overload phrasing (openai_server.py line 269). -/
def overloadPhrase1 : List Char := "ask me again later".data

/-- Second documented overload phrasing (openai_server.py line 269). -/
def overloadPhrase2 : List Char := "more images than usual".data

/-- The overload-detection predicate of the image endpoints:
`"ask me again later" in error_text.lower() or
 "more images than usual" in error_text.lower()`. -/
def isOverload (errorText : List Char) : Bool :=
  containsSub (lowerChars errorText) overloadPhrase1 ||
  containsSub (lowerChars errorText) overloadPhrase2

theorem leadsList_iff (n h : List Char) :
    leadsList n h = true ↔ ∃ t, h = n ++ t := by
  induction n generalizing h with
  | nil =>
    simp only [leadsList, List.nil_append]
    exact ⟨fun _ => ⟨h, rfl⟩, fun _ => trivial⟩
  | cons a as ih =>
    cases h with
    | nil =>
      simp only [leadsList]
      constructor
      · intro hc; cases hc
      · rintro ⟨t, ht⟩; cases ht
    | cons b bs =>
      simp only [leadsList, Bool.and_eq_true, decide_eq_true_eq, ih,
        List.cons_append, List.cons.injEq]
      constructor
      · rintro ⟨rfl, t, rfl⟩; exact ⟨t, rfl, rfl⟩
      · rintro ⟨t, rfl, rfl⟩; exact ⟨rfl, t, rfl⟩

theorem containsSub_iff (h n : List Char) :
    containsSub h n = true ↔ ∃ a b, h = a ++ n ++ b := by
  simp only [containsSub, List.any_eq_true, List.mem_range]
  constructor
  · rintro ⟨i, _, hp⟩
    obtain ⟨t, ht⟩ := (leadsList_iff n (h.drop i)).mp hp
    refine ⟨h.take i, t, ?_⟩
    rw [List.append_assoc, ← ht, List.take_append_drop]
  · rintro ⟨a, b, rfl⟩
    refine ⟨a.length, ?_, ?_⟩
    · simp only [List.length_append]
      omega
    · rw [List.append_assoc, List.drop_left]
      exact (leadsList_iff n (n ++ b)).mpr ⟨b, rfl⟩

theorem containsSub_lower_iff (s p : List Char) :
    containsSub (lowerChars s) p = true ↔
      ∃ a v b, s = a ++ v ++ b ∧ lowerChars v = p := by
  rw [containsSub_iff]
  constructor
  · rintro ⟨x, y, hxy⟩
    obtain ⟨ap, b, rfl, hap, hb⟩ := List.map_eq_append_iff.mp hxy
    obtain ⟨a, v, rfl, ha, hv⟩ := List.map_eq_append_iff.mp hap
    exact ⟨a, v, b, rfl, hv⟩
  · rintro ⟨a, v, b, rfl, hv⟩
    refine ⟨lowerChars a, lowerChars b, ?_⟩
    simp only [lowerChars] at hv ⊢
    simp [List.map_append, hv]

/-- C5: the overload predicate of the image endpoints is true exactly on the
error strings containing a letter-case variant of one of the two documented
phrasings, and therefore false on every string containing neither; in
particular it accepts a mixed-case occurrence and rejects an unrelated
message. -/
theorem isOverload_spec (s : List Char) :
    (isOverload s = true ↔
      ((∃ a v b, s = a ++ v ++ b ∧ lowerChars v = overloadPhrase1) ∨
       (∃ a v b, s = a ++ v ++ b ∧ lowerChars v = overloadPhrase2))) ∧
    isOverload "Please Ask Me AGAIN Later".data = true ∧
    isOverload "Google returned MORE IMAGES THAN USUAL today".data = true ∧
    isOverload "invalid credentials".data = false := by
  refine ⟨?_, by decide, by decide, by decide⟩
  simp only [isOverload, Bool.or_eq_true, containsSub_lower_iff]

/-! ### Image-generation retry loop (openai_server.py, `generate_images`) -/

/-- One upstream exchange as seen by an iteration of the retry loop: either
`generate_content` returned a response (image list and text), or it raised an
exception rendered as `str(e)`. -/
inductive UpstreamResult where
  | ok (images : List String) (text : Option String)
  | exn (msg : String)
  deriving DecidableEq, Repr

/-- Python `response.text or "No image generated"`: both `None` and the empty
string are falsy and replaced by the default. -/
def errorTextOf : Option String → String
  | none => "No image generated"
  | some t => if t = "" then "No image generated" else t

/-- The overload predicate applied to a `String`. -/
def isOverloadStr (s : String) : Bool := isOverload s.data

/-- What one loop iteration does with the upstream result (openai_server.py
lines 248–288): success on a non-empty image list; a 400 on a non-overload
empty response; a 500 on a non-overload exception; otherwise a retryable
overload carrying the error message. -/
inductive StepOut where
  | success (images : List String)
  | fail400 (detail : String)
  | fail500 (detail : String)
  | overload (msg : String)
  deriving DecidableEq, Repr

def attemptStep : UpstreamResult → StepOut
  | .ok images text =>
    if images ≠ [] then .success images
    else
      let et := errorTextOf text
      if isOverloadStr et then .overload et else .fail400 et
  | .exn msg =>
    if isOverloadStr msg then .overload msg else .fail500 msg

/-- Final outcome of `generate_images`: either an OpenAI-style payload built
from the images of the succeeding attempt, or an `HTTPException`. -/
inductive GenFinal where
  | success (attempt : Nat) (images : List String)
  | httpError (status : Nat) (detail : String)
  deriving DecidableEq, Repr

/-- Observable trace of one `generate_images` call.  `attemptsMade` counts loop
iterations; `accountsAcquired` counts `get_gemini_client()` calls (one at the
start of each iteration, so retries acquire a fresh account) and
`sessionsClosed` counts the `finally: await client.close()` runs (one at the
end of each iteration); `sleeps5s` counts the 5-second `asyncio.sleep` calls
performed after a detected overload. -/
structure GenTrace where
  final : GenFinal
  attemptsMade : Nat
  accountsAcquired : Nat
  sessionsClosed : Nat
  sleeps5s : Nat
  deriving DecidableEq, Repr

/-- Rendering of `last_error` inside the exhaustion f-string (Python prints
`None` when no message was recorded — unreachable, since exhaustion requires
three overloads). -/
def lastErrorStr : Option String → String
  | none => "None"
  | some s => s

/-- The retry loop of `generate_images` (openai_server.py lines 242–294):
`for attempt in range(1, MAX_RETRIES + 1)` with `MAX_RETRIES = 3`,
`RETRY_DELAY = 5`.  `remaining` counts the iterations left. -/
def genLoopAux (f : Nat → UpstreamResult) :
    Nat → Nat → Option String → Nat → Nat → GenTrace
  | _, 0, lastError, made, slept =>
    { final := .httpError 500
        ("Rate limited after 3 retries: " ++ lastErrorStr lastError),
      attemptsMade := made, accountsAcquired := made, sessionsClosed := made,
      sleeps5s := slept }
  | attempt, remaining + 1, _lastError, made, slept =>
    match attemptStep (f attempt) with
    | .success imgs =>
      { final := .success attempt imgs, attemptsMade := made + 1,
        accountsAcquired := made + 1, sessionsClosed := made + 1,
        sleeps5s := slept }
    | .fail400 d =>
      { final := .httpError 400 d, attemptsMade := made + 1,
        accountsAcquired := made + 1, sessionsClosed := made + 1,
        sleeps5s := slept }
    | .fail500 d =>
      { final := .httpError 500 d, attemptsMade := made + 1,
        accountsAcquired := made + 1, sessionsClosed := made + 1,
        sleeps5s := slept }
    | .overload m =>
      genLoopAux f (attempt + 1) remaining (some m) (made + 1) (slept + 1)

/-- `generate_images`, parameterized by what the upstream does on each attempt
(`f k` is the result of the exchange of attempt `k`, counted from 1). -/
def generate_images (f : Nat → UpstreamResult) : GenTrace :=
  genLoopAux f 1 3 none 0 0

theorem attemptStep_success_ne_nil {r : UpstreamResult} {imgs : List String}
    (h : attemptStep r = .success imgs) : imgs ≠ [] := by
  cases r with
  | ok images text =>
    simp only [attemptStep] at h
    by_cases hi : images ≠ []
    · rw [if_pos hi] at h
      injection h with h'
      rw [← h']
      exact hi
    · rw [if_neg hi] at h
      by_cases ho : isOverloadStr (errorTextOf text) = true <;>
        simp [ho] at h
  | exn msg =>
    simp only [attemptStep] at h
    by_cases ho : isOverloadStr msg = true <;> simp [ho] at h

theorem genLoopAux_counts (f : Nat → UpstreamResult) (r : Nat) :
    ∀ attempt lastError made slept,
      (genLoopAux f attempt r lastError made slept).attemptsMade ≤ made + r ∧
      (genLoopAux f attempt r lastError made slept).accountsAcquired =
        (genLoopAux f attempt r lastError made slept).attemptsMade ∧
      (genLoopAux f attempt r lastError made slept).sessionsClosed =
        (genLoopAux f attempt r lastError made slept).attemptsMade := by
  induction r with
  | zero =>
    intro attempt _lastError made slept
    simp [genLoopAux]
  | succ r ih =>
    intro attempt lastError made slept
    cases hs : attemptStep (f attempt) with
    | success imgs => simp [genLoopAux, hs]
    | fail400 d => simp [genLoopAux, hs]
    | fail500 d => simp [genLoopAux, hs]
    | overload m =>
      simp only [genLoopAux, hs]
      have := ih (attempt + 1) (some m) (made + 1) (slept + 1)
      exact ⟨by omega, this.2.1, this.2.2⟩

theorem genLoopAux_success_char (f : Nat → UpstreamResult) (r : Nat) :
    ∀ attempt lastError made slept k imgs,
      (genLoopAux f attempt r lastError made slept).final = .success k imgs →
      attempt ≤ k ∧ k < attempt + r ∧ attemptStep (f k) = .success imgs ∧
      (genLoopAux f attempt r lastError made slept).attemptsMade =
        made + (k - attempt) + 1 ∧
      (genLoopAux f attempt r lastError made slept).sleeps5s =
        slept + (k - attempt) ∧
      (∀ j, attempt ≤ j → j < k → ∃ m, attemptStep (f j) = .overload m) := by
  induction r with
  | zero =>
    intro attempt lastError made slept k imgs h
    simp [genLoopAux] at h
  | succ r ih =>
    intro attempt lastError made slept k imgs h
    cases hs : attemptStep (f attempt) with
    | success imgs' =>
      simp only [genLoopAux, hs] at h ⊢
      injection h with hk himgs
      subst hk
      subst himgs
      refine ⟨le_refl _, by omega, hs, by simp, by simp, ?_⟩
      intro j hj1 hj2
      omega
    | fail400 d => simp [genLoopAux, hs] at h
    | fail500 d => simp [genLoopAux, hs] at h
    | overload m =>
      simp only [genLoopAux, hs] at h ⊢
      obtain ⟨h1, h2, h3, h4, h5, h6⟩ :=
        ih (attempt + 1) (some m) (made + 1) (slept + 1) k imgs h
      refine ⟨by omega, by omega, h3, by rw [h4]; omega, by rw [h5]; omega, ?_⟩
      intro j hj1 hj2
      by_cases hja : j = attempt
      · exact ⟨m, hja ▸ hs⟩
      · exact h6 j (by omega) hj2

/-- C2: for every inbound image-generation request the retry loop performs at
most 3 attempts, acquiring a fresh account/session per attempt and closing the
session at each attempt's end; it succeeds as soon as an attempt yields a
non-empty image list (having slept 5 seconds once per previously detected
overload); a non-overload failure of attempt k (HTTP 400 for an imageless
response, HTTP 500 for an exception) is surfaced immediately with no further
attempts; and three consecutive overloads exhaust the loop into an HTTP 500
whose detail embeds the last observed upstream message. -/
theorem generate_images_retry_spec (f : Nat → UpstreamResult) :
    ((generate_images f).attemptsMade ≤ 3 ∧
     (generate_images f).accountsAcquired = (generate_images f).attemptsMade ∧
     (generate_images f).sessionsClosed = (generate_images f).attemptsMade) ∧
    (∀ k imgs, (generate_images f).final = .success k imgs →
      imgs ≠ [] ∧ 1 ≤ k ∧ k ≤ 3 ∧ attemptStep (f k) = .success imgs ∧
      (generate_images f).attemptsMade = k ∧
      (generate_images f).sleeps5s = k - 1 ∧
      ∀ j, 1 ≤ j → j < k → ∃ m, attemptStep (f j) = .overload m) ∧
    (∀ k d, 1 ≤ k → k ≤ 3 → attemptStep (f k) = .fail400 d →
      (∀ j, 1 ≤ j → j < k → ∃ m, attemptStep (f j) = .overload m) →
      (generate_images f).final = .httpError 400 d ∧
      (generate_images f).attemptsMade = k) ∧
    (∀ k d, 1 ≤ k → k ≤ 3 → attemptStep (f k) = .fail500 d →
      (∀ j, 1 ≤ j → j < k → ∃ m, attemptStep (f j) = .overload m) →
      (generate_images f).final = .httpError 500 d ∧
      (generate_images f).attemptsMade = k) ∧
    (∀ m1 m2 m3, attemptStep (f 1) = .overload m1 →
      attemptStep (f 2) = .overload m2 → attemptStep (f 3) = .overload m3 →
      (generate_images f).final =
        .httpError 500 ("Rate limited after 3 retries: " ++ m3) ∧
      (generate_images f).attemptsMade = 3 ∧
      (generate_images f).sleeps5s = 3) := by
  refine ⟨?_, ?_, ?_, ?_, ?_⟩
  · have h := genLoopAux_counts f 3 1 none 0 0
    exact ⟨by simpa using h.1, h.2.1, h.2.2⟩
  · intro k imgs h
    obtain ⟨h1, h2, h3, h4, h5, h6⟩ :=
      genLoopAux_success_char f 3 1 none 0 0 k imgs h
    refine ⟨attemptStep_success_ne_nil h3, h1, by omega, h3, ?_, ?_, h6⟩
    · show (genLoopAux f 1 3 none 0 0).attemptsMade = k
      omega
    · show (genLoopAux f 1 3 none 0 0).sleeps5s = k - 1
      omega
  · intro k d hk1 hk3 hstep hov
    interval_cases k
    · constructor <;> simp [generate_images, genLoopAux, hstep]
    · obtain ⟨m1, hm1⟩ := hov 1 (le_refl 1) (by omega)
      constructor <;> simp [generate_images, genLoopAux, hm1, hstep]
    · obtain ⟨m1, hm1⟩ := hov 1 (by omega) (by omega)
      obtain ⟨m2, hm2⟩ := hov 2 (by omega) (by omega)
      constructor <;> simp [generate_images, genLoopAux, hm1, hm2, hstep]
  · intro k d hk1 hk3 hstep hov
    interval_cases k
    · constructor <;> simp [generate_images, genLoopAux, hstep]
    · obtain ⟨m1, hm1⟩ := hov 1 (le_refl 1) (by omega)
      constructor <;> simp [generate_images, genLoopAux, hm1, hstep]
    · obtain ⟨m1, hm1⟩ := hov 1 (by omega) (by omega)
      obtain ⟨m2, hm2⟩ := hov 2 (by omega) (by omega)
      constructor <;> simp [generate_images, genLoopAux, hm1, hm2, hstep]
  · intro m1 m2 m3 h1 h2 h3
    refine ⟨?_, ?_, ?_⟩ <;>
      simp [generate_images, genLoopAux, h1, h2, h3, lastErrorStr]

/-- The spec's retry scenario: attempts 1 and 2 hit the two overload
phrasings, attempt 3 returns one image. -/
def fRetryDemo : Nat → UpstreamResult := fun k =>
  if k = 1 then .exn "Ask me again later"
  else if k = 2 then .ok [] (some "You are requesting more images than usual")
  else .ok ["img3.png"] none

/-- Witness for C2: the retry theorem applied to `fRetryDemo`, whose run
succeeds on the third attempt after two overloads. -/
theorem generate_images_retry_spec_witness :
    (["img3.png"] : List String) ≠ [] ∧ 1 ≤ 3 ∧ 3 ≤ 3 ∧
    attemptStep (fRetryDemo 3) = .success ["img3.png"] ∧
    (generate_images fRetryDemo).attemptsMade = 3 ∧
    (generate_images fRetryDemo).sleeps5s = 3 - 1 ∧
    ∀ j, 1 ≤ j → j < 3 → ∃ m, attemptStep (fRetryDemo j) = .overload m :=
  (generate_images_retry_spec fRetryDemo).2.1 3 ["img3.png"] (by decide)

/-! ### Streaming chat delivery (openai_server.py, `stream_generator`) -/

/-- Python `text[i:i+10]` slicing loop: `for i in range(0, len(text), 10)`.
`chunksGo` consumes fuel so the recursion is structural; with fuel at least the
list length it splits the character list into consecutive 10-character chunks,
the last one possibly shorter. -/
def chunksGo : Nat → List Char → List (List Char)
  | 0, _ => []
  | _ + 1, [] => []
  | fuel + 1, a :: t => (a :: t).take 10 :: chunksGo fuel ((a :: t).drop 10)

/-- The chunking of the returned text performed by `stream_generator`
(openai_server.py lines 563–568, chunk size 10). -/
def chunks10 (l : List Char) : List (List Char) := chunksGo l.length l

/-- The payload of one SSE `chat.completion.chunk` event as built by
`format_stream_chunk` (openai_server.py lines 579–594): the delta is
`{"content": content}` when the content is non-empty, else the empty object
(modelled as `none`); nondeterministic envelope fields (id, created, model)
carry no logic and are omitted. -/
structure StreamChunk where
  delta : Option String
  finish_reason : Option String
  deriving DecidableEq, Repr

def format_stream_chunk (content : String) (finish : Option String) :
    StreamChunk :=
  { delta := if content = "" then none else some content,
    finish_reason := finish }

/-- One item yielded by `stream_generator`: a formatted chunk event or the
literal `"[DONE]"` end-of-stream sentinel. -/
inductive StreamEvent where
  | chunk (c : StreamChunk)
  | doneSentinel
  deriving DecidableEq, Repr

/-- `stream_generator` (openai_server.py lines 551–574), parameterized by the
full text the single upstream exchange returned: the whole response is fetched
first, then re-emitted as 10-character chunk events, then a final event with
finish reason `"stop"`, then `"[DONE]"`. -/
def stream_generator (text : String) : List StreamEvent :=
  ((chunks10 text.data).map fun c =>
    StreamEvent.chunk (format_stream_chunk (String.mk c) none)) ++
  [.chunk (format_stream_chunk "" (some "stop")), .doneSentinel]

theorem chunksGo_nil (fuel : Nat) : chunksGo fuel [] = [] := by
  cases fuel <;> rfl

theorem chunksGo_flatten (fuel : Nat) :
    ∀ l : List Char, l.length ≤ fuel → (chunksGo fuel l).flatten = l := by
  induction fuel with
  | zero =>
    intro l h
    have hl : l = [] := List.eq_nil_of_length_eq_zero (Nat.le_zero.mp h)
    subst hl
    rfl
  | succ fuel ih =>
    intro l h
    cases l with
    | nil => rfl
    | cons a t =>
      simp only [chunksGo, List.flatten_cons]
      rw [ih ((a :: t).drop 10) (by
        simp only [List.length_drop, List.length_cons] at h ⊢
        omega)]
      exact List.take_append_drop 10 (a :: t)

theorem chunksGo_mem_bounds (fuel : Nat) :
    ∀ l : List Char, l.length ≤ fuel →
      ∀ c ∈ chunksGo fuel l, c ≠ [] ∧ c.length ≤ 10 := by
  induction fuel with
  | zero =>
    intro l _ c hc
    simp [chunksGo] at hc
  | succ fuel ih =>
    intro l h c hc
    cases l with
    | nil => simp [chunksGo] at hc
    | cons a t =>
      simp only [chunksGo] at hc
      rcases List.mem_cons.mp hc with rfl | hc'
      · refine ⟨?_, by simp [List.length_take]⟩
        intro hnil
        rcases List.take_eq_nil_iff.mp hnil with h' | h'
        · cases h'
        · cases h'
      · exact ih ((a :: t).drop 10)
          (by simp only [List.length_drop, List.length_cons] at h ⊢; omega) c hc'

theorem chunksGo_dropLast_full (fuel : Nat) :
    ∀ l : List Char, l.length ≤ fuel →
      ∀ c ∈ (chunksGo fuel l).dropLast, c.length = 10 := by
  induction fuel with
  | zero =>
    intro l _ c hc
    simp [chunksGo] at hc
  | succ fuel ih =>
    intro l h c hc
    cases l with
    | nil => simp [chunksGo] at hc
    | cons a t =>
      simp only [chunksGo] at hc
      cases hr : chunksGo fuel ((a :: t).drop 10) with
      | nil =>
        rw [hr] at hc
        simp at hc
      | cons r rs =>
        rw [hr, List.dropLast_cons₂] at hc
        rcases List.mem_cons.mp hc with rfl | hc'
        · have hdrop : (a :: t).drop 10 ≠ [] := by
            intro hnil
            rw [hnil, chunksGo_nil] at hr
            cases hr
          have hlen : 10 < (a :: t).length := by
            by_contra hcon
            exact hdrop (List.drop_eq_nil_iff.mpr (by omega))
          simp only [List.length_take]
          omega
        · rw [← hr] at hc'
          exact ih ((a :: t).drop 10)
            (by simp only [List.length_drop, List.length_cons] at h ⊢; omega) c hc'

theorem chunks10_flatten (l : List Char) : (chunks10 l).flatten = l :=
  chunksGo_flatten l.length l (le_refl _)

theorem chunks10_mem_bounds (l : List Char) :
    ∀ c ∈ chunks10 l, c ≠ [] ∧ c.length ≤ 10 :=
  chunksGo_mem_bounds l.length l (le_refl _)

theorem chunks10_dropLast_full (l : List Char) :
    ∀ c ∈ (chunks10 l).dropLast, c.length = 10 :=
  chunksGo_dropLast_full l.length l (le_refl _)

/-- C6: a streaming chat completion fetches the whole response text first and
re-emits it as consecutive 10-character chunk events in original order (each
chunk non-empty, at most 10 characters, and every chunk before the last
exactly 10), followed by one final event with finish reason `"stop"` and then
the `"[DONE]"` sentinel; for response text `"OK"` exactly one content delta
event carrying `"OK"` precedes the stop event and the sentinel. -/
theorem stream_generator_spec (text : String) :
    ((chunks10 text.data).flatten = text.data) ∧
    (∀ c ∈ chunks10 text.data, c ≠ [] ∧ c.length ≤ 10) ∧
    (∀ c ∈ (chunks10 text.data).dropLast, c.length = 10) ∧
    (stream_generator text =
      ((chunks10 text.data).map fun c =>
        StreamEvent.chunk { delta := some (String.mk c), finish_reason := none }) ++
      [.chunk { delta := none, finish_reason := some "stop" }, .doneSentinel]) ∧
    (stream_generator "OK" =
      [.chunk { delta := some "OK", finish_reason := none },
       .chunk { delta := none, finish_reason := some "stop" }, .doneSentinel]) := by
  refine ⟨chunks10_flatten text.data, chunks10_mem_bounds text.data,
    chunks10_dropLast_full text.data, ?_, by decide⟩
  simp only [stream_generator, format_stream_chunk]
  congr 1
  apply List.map_congr_left
  intro c hc
  have hne : c ≠ [] := (chunks10_mem_bounds text.data c hc).1
  have hmk : String.mk c ≠ "" := by
    intro hs
    exact hne (congrArg String.data hs)
  simp [hmk]

/-! ### Non-streaming response envelope (openai_server.py, `format_response`) -/

/-- The usage accounting block of the completion envelope. -/
structure Usage where
  prompt_tokens : Nat
  completion_tokens : Nat
  total_tokens : Nat
  deriving DecidableEq, Repr

/-- The assistant message inside the envelope. -/
structure ChatMessageOut where
  role : String
  content : String
  deriving DecidableEq, Repr

/-- The JSON object returned by `format_response` (openai_server.py lines
596–618); the nondeterministic id/created fields carry no logic and are
omitted. -/
structure ChatCompletionResponse where
  objectKind : String
  model : String
  message : ChatMessageOut
  finish_reason : String
  usage : Usage
  deriving DecidableEq, Repr

/-- `format_response(gemini_resp, model)`, parameterized by the response text:
`prompt_tokens` is hard-coded 0 ("Not calculated"), `completion_tokens` and
`total_tokens` are both `len(text) // 4`. -/
def format_response (text model : String) : ChatCompletionResponse :=
  { objectKind := "chat.completion"
    model := model
    message := { role := "assistant", content := text }
    finish_reason := "stop"
    usage := { prompt_tokens := 0
               completion_tokens := text.length / 4
               total_tokens := text.length / 4 } }

/-- C10: every non-streaming completion reports `prompt_tokens = 0` and
`completion_tokens = total_tokens = ⌊len(text)/4⌋`, so `total_tokens` never
includes a prompt contribution. -/
theorem format_response_usage (text model : String) :
    (format_response text model).usage.prompt_tokens = 0 ∧
    (format_response text model).usage.completion_tokens = text.length / 4 ∧
    (format_response text model).usage.total_tokens = text.length / 4 ∧
    (format_response text model).usage.total_tokens =
      (format_response text model).usage.completion_tokens :=
  ⟨rfl, rfl, rfl, rfl⟩

/-! ### Transient asset sweep (openai_server.py, `cleanup_old_files`) -/

/-- One directory entry as the sweep sees it: its name, its modification time,
whether `os.path.isfile` holds, and whether `os.remove` would succeed. -/
structure SweepFile where
  name : String
  mtime : Int
  isFile : Bool
  removeOk : Bool
  deriving DecidableEq, Repr

/-- One pass of the body of `cleanup_old_files` (openai_server.py lines
75–89): for each directory entry that is a file and strictly older than the
expiry window, attempt `os.remove`; a failed removal is logged and the loop
continues with the remaining entries.  Returns the names actually deleted, in
directory order. -/
def cleanup_pass (now expiry : Int) : List SweepFile → List String
  | [] => []
  | f :: rest =>
    if f.isFile then
      if now - f.mtime > expiry then
        if f.removeOk then f.name :: cleanup_pass now expiry rest
        else cleanup_pass now expiry rest
      else cleanup_pass now expiry rest
    else cleanup_pass now expiry rest

/-- C9: a single sweep pass deletes exactly the top-level files strictly older
than the expiry window whose removal succeeds — so with a 24-hour window a
file aged 25 hours is deleted and a file aged 1 hour is kept — and one file's
failed removal does not stop later eligible files from being deleted. -/
theorem cleanup_pass_spec (now expiry : Int) (files : List SweepFile) :
    (cleanup_pass now expiry files =
      (files.filter fun f =>
        f.isFile && decide (now - f.mtime > expiry) && f.removeOk).map (·.name)) ∧
    (cleanup_pass (100 * 3600) (24 * 3600)
      [ { name := "old25h", mtime := 75 * 3600, isFile := true, removeOk := true },
        { name := "new1h", mtime := 99 * 3600, isFile := true, removeOk := true } ] =
      ["old25h"]) ∧
    (cleanup_pass (100 * 3600) (24 * 3600)
      [ { name := "stuck", mtime := 70 * 3600, isFile := true, removeOk := false },
        { name := "old25h", mtime := 75 * 3600, isFile := true, removeOk := true } ] =
      ["old25h"]) := by
  refine ⟨?_, by decide, by decide⟩
  induction files with
  | nil => rfl
  | cons f rest ih =>
    simp only [cleanup_pass, List.filter_cons]
    by_cases h1 : f.isFile = true
    · by_cases h2 : now - f.mtime > expiry
      · by_cases h3 : f.removeOk = true
        · simp [h1, h2, h3, ih]
        · simp [h1, h2, h3, ih]
      · simp [h1, h2, ih]
    · simp [h1, ih]

/-! ### Chat-completion cleanup paths (openai_server.py, `chat_completions`) -/

/-- Outcome of `extract_content_and_files` (openai_server.py line 508): either
it returns the list of materialized temp-file paths, or it raises mid-way
(e.g. a remote image download fails) after having already materialized some
files — in which case the caller's `temp_files` variable is never assigned and
remains `[]`. -/
inductive ExtractOut where
  | ok (files : List String)
  | err (materializedBefore : List String)
  deriving DecidableEq, Repr

/-- Outcome of the single upstream exchange (`chat.send_message`). -/
inductive ExchangeOut where
  | ok (text : String)
  | err (msg : String)
  deriving DecidableEq, Repr

/-- What a run of `chat_completions` did on its way out: whether
`client.close()` ran, which temp files were deleted, which temp files had been
materialized, and whether the request succeeded. -/
structure ChatTrace where
  clientClosed : Bool
  removedFiles : List String
  materialized : List String
  succeeded : Bool
  deriving DecidableEq, Repr

/-- `chat_completions` (openai_server.py lines 496–548) together with
`cleanup_generator` / `stream_generator` (lines 522–574), restricted to its
exit behaviour after a successful client init:

* extraction failure → the `except` block deletes `temp_files` (still `[]`),
  closes the client, re-raises as HTTP 500 — the files materialized before the
  failure are never deleted;
* streaming → `stream_generator`'s `finally` closes the client and
  `cleanup_generator`'s `finally` deletes the temp files, on success and on
  upstream failure alike;
* non-streaming upstream failure → the `except` block deletes the temp files
  and closes the client;
* non-streaming success → the temp files are deleted and `format_response` is
  returned, but no `client.close()` appears on this path. -/
def chat_completions (stream : Bool) (ext : ExtractOut) (exch : ExchangeOut) :
    ChatTrace :=
  match ext with
  | .err made =>
    { clientClosed := true, removedFiles := [], materialized := made,
      succeeded := false }
  | .ok files =>
    if stream then
      match exch with
      | .ok _ =>
        { clientClosed := true, removedFiles := files, materialized := files,
          succeeded := true }
      | .err _ =>
        { clientClosed := true, removedFiles := files, materialized := files,
          succeeded := false }
    else
      match exch with
      | .ok _ =>
        { clientClosed := false, removedFiles := files, materialized := files,
          succeeded := true }
      | .err _ =>
        { clientClosed := true, removedFiles := files, materialized := files,
          succeeded := false }

/-- C3 (code evaluated at the failing inputs): on the non-streaming success
path `chat_completions` returns without closing the client, and after an
extraction failure the files already materialized are not deleted — refuting
the claim that session release and attachment deletion happen on every exit
path.  The failure paths and the streaming path do clean up, and in the image
endpoints the session is closed at the end of every retry attempt
(`sessionsClosed = attemptsMade` on the demo run). -/
theorem chat_completions_cleanup_paths :
    (chat_completions false (.ok ["t1.png"]) (.ok "hello")).succeeded = true ∧
    (chat_completions false (.ok ["t1.png"]) (.ok "hello")).clientClosed = false ∧
    (chat_completions false (.ok ["t1.png"]) (.ok "hello")).removedFiles = ["t1.png"] ∧
    (chat_completions false (.err ["t2.png"]) (.ok "x")).materialized = ["t2.png"] ∧
    (chat_completions false (.err ["t2.png"]) (.ok "x")).removedFiles = [] ∧
    (chat_completions false (.err ["t2.png"]) (.ok "x")).clientClosed = true ∧
    (chat_completions true (.ok ["t3.png"]) (.ok "y")).clientClosed = true ∧
    (chat_completions true (.ok ["t3.png"]) (.ok "y")).removedFiles = ["t3.png"] ∧
    (chat_completions true (.ok ["t3.png"]) (.err "boom")).clientClosed = true ∧
    (chat_completions false (.ok ["t4.png"]) (.err "boom")).clientClosed = true ∧
    (chat_completions false (.ok ["t4.png"]) (.err "boom")).removedFiles = ["t4.png"] ∧
    (generate_images fRetryDemo).sessionsClosed =
      (generate_images fRetryDemo).attemptsMade := by
  decide
